import Mathlib

/-!
# Verification of the local-git-rs repository registry and remote configurator

Shallow embedding of `src/hub.rs` (the `LocalGitHub` repository registry) and
`src/remote.rs` (the `RemoteManager` remote configurator).

Modelling conventions:

* The filesystem is an inductive tree `FsNode` of directories and files.
  File byte sizes and modification times are `Nat` fields; the template
  file sizes used by `bareRepoLayout` are nominal constants (their exact
  values are immaterial to every claim).
* Rust `PathBuf` values are represented as lists of path components
  (`List String`).  `PathBuf::join` with a relative argument appends the
  argument's slash-separated components; the operating system resolves
  `.` and `..` components at syscall time, which the model performs with
  `resolvePath` before every filesystem access.
* Fallible Rust functions returning `anyhow::Result` become functions
  returning an `Except` error code paired with the (possibly updated)
  filesystem, so that "state unchanged on failure" is an actual statement
  about the returned state.  The `anyhow` error messages are classified
  by the error taxonomy of the specification (`HubError`, `RemoteError`).
* The remote configurator operates on an already-opened repository
  (`RepoState`): a list of configured remotes plus the repository's git
  config, modelled as a single-valued key/value association list, which
  is what `git2::Config::get_string`/`set_str` manipulate here.
* The external libgit2 history walk (`get_commit_count`) is abstracted
  as a function parameter `commitCount`; no claim constrains its value.
-/

/-! ## Paths: splitting, joining and resolving -/

/-- Rust `str::ends_with`: suffix test on the underlying characters. -/
def strEndsWith (s pat : String) : Bool :=
  pat.data.isSuffixOf s.data

/-- Rust `str::starts_with` for a path: used to detect absolute paths in `join`. -/
def strStartsWith (s pat : String) : Bool :=
  pat.data.isPrefixOf s.data

/-- Lexicographic comparison of character sequences in scalar-value order,
which on UTF-8 data coincides with the byte-wise order `Vec::<String>::sort`
uses. -/
def charsLe : List Char → List Char → Bool
  | [], _ => true
  | _ :: _, [] => false
  | a :: as, b :: bs => if a < b then true else if b < a then false else charsLe as bs

/-- The string order of `Vec::<String>::sort`. -/
def strLeB (a b : String) : Bool := charsLe a.data b.data

/-- Split a path string into its slash-separated components, dropping empty
components (as Rust's `Path::components` does).  `cur` accumulates the
current component in reverse. -/
def splitPathGo : List Char → List Char → List String
  | cur, [] => if cur.isEmpty then [] else [String.mk cur.reverse]
  | cur, c :: rest =>
    if c = '/' then
      if cur.isEmpty then splitPathGo [] rest
      else String.mk cur.reverse :: splitPathGo [] rest
    else splitPathGo (c :: cur) rest

def splitPath (s : String) : List String :=
  splitPathGo [] s.data

/-- Rust `PathBuf::join`: an absolute right operand replaces the base path,
a relative one is appended. -/
def joinPath (base : List String) (s : String) : List String :=
  if strStartsWith s "/" then splitPath s else base ++ splitPath s

/-- One step of operating-system path resolution: `.` is dropped, `..` pops
the last component (and is a no-op at the root, as on Linux). -/
def resolveComp (acc : List String) (c : String) : List String :=
  if c = "." then acc
  else if c = ".." then acc.dropLast
  else acc ++ [c]

/-- Resolve `.` and `..` components the way the kernel does when the path is
used in a syscall. -/
def resolvePath (p : List String) : List String :=
  p.foldl resolveComp []

/-! ## The filesystem tree -/

inductive FsNode where
  | file (size : Nat) (mtime : Nat)
  | dir (mtime : Nat) (children : List (String × FsNode))

/-- First child with the given name (directory entries have unique names on a
real filesystem; the first match is the entry). -/
def lookupChild : List (String × FsNode) → String → Option FsNode
  | [], _ => none
  | (k, v) :: rest, name => if k = name then some v else lookupChild rest name

/-- `Path::exists`-style lookup of the node at a (resolved) path. -/
def FsNode.lookup : FsNode → List String → Option FsNode
  | n, [] => some n
  | .file _ _, _ :: _ => none
  | .dir _ cs, name :: rest =>
    match lookupChild cs name with
    | some c => c.lookup rest
    | none => none

def FsNode.isDirNode : FsNode → Bool
  | .file _ _ => false
  | .dir _ _ => true

def FsNode.mtime : FsNode → Nat
  | .file _ mt => mt
  | .dir mt _ => mt

/-- Replace the child with the given name, or append it if absent. -/
def setChild : List (String × FsNode) → String → FsNode → List (String × FsNode)
  | [], name, v => [(name, v)]
  | (k, w) :: rest, name, v =>
    if k = name then (k, v) :: rest else (k, w) :: setChild rest name v

/-- Install `newNode` at `path`, creating intermediate directories as
`create_dir_all` would.  If the walk hits a file the tree is returned
unchanged (the caller checks `canCreateAt` first, as the Rust code's
initialization would fail with an I/O error there). -/
def FsNode.insertAt : FsNode → List String → FsNode → FsNode
  | _, [], newNode => newNode
  | .file sz mt, _ :: _, _ => .file sz mt
  | .dir mt cs, name :: rest, newNode =>
    let child := (lookupChild cs name).getD (.dir 0 [])
    .dir mt (setChild cs name (child.insertAt rest newNode))

/-- `fs::remove_dir_all`: remove the whole subtree at `path`. -/
def FsNode.removeAt : List String → FsNode → FsNode
  | _, .file sz mt => .file sz mt
  | [], n => n
  | [name], .dir mt cs => .dir mt (cs.filter (fun kv => !(kv.1 == name)))
  | name :: rest, .dir mt cs =>
    .dir mt (cs.map (fun kv =>
      (kv.1, if kv.1 = name then FsNode.removeAt rest kv.2 else kv.2)))

/-- Whether creating a directory tree at `path` can succeed: the existing
prefix of the path must consist of directories. -/
def canCreateAt : FsNode → List String → Bool
  | _, [] => true
  | .file _ _, _ :: _ => false
  | .dir _ cs, name :: rest =>
    match lookupChild cs name with
    | some c => canCreateAt c rest
    | none => true

/-- `LocalGitHub::get_dir_size`: recursively sum the sizes of the files below
a node; directories themselves contribute nothing. -/
def get_dir_size : FsNode → Nat
  | .file _ _ => 0
  | .dir _ cs => childrenSize cs
where childrenSize : List (String × FsNode) → Nat
  | [] => 0
  | (_, .file sz _) :: rest => sz + childrenSize rest
  | (_, .dir mt cs) :: rest => get_dir_size (.dir mt cs) + childrenSize rest

/-! ## The repository registry (`src/hub.rs`) -/

/-- The specification's error taxonomy for registry operations; each
`anyhow::bail!` site of `hub.rs` is classified by its message. -/
inductive HubError where
  | invalidName
  | alreadyExists
  | notFound
  | invalidRepository
  | ioFailure
deriving DecidableEq, Repr

/-- The suffix normalization applied by every registry operation:
`if name.ends_with(".git") { name } else { format!("{}.git", name) }`. -/
def rustRepoName (name : String) : String :=
  if strEndsWith name ".git" then name else name ++ ".git"

/-- The filesystem path a registry operation addresses for `name`:
`hub_path.join(repo_name)`, resolved by the operating system. -/
def repoTarget (hub : List String) (name : String) : List String :=
  resolvePath (joinPath hub (rustRepoName name))

/-- `LocalGitHub::validate_repo_name`. -/
def validate_repo_name (name : String) : Except HubError Unit :=
  if name = "" then .error .invalidName
  else if name.data.any
      (fun c => ['/', '\\', ':', '*', '?', '"', '<', '>', '|'].contains c) then
    .error .invalidName
  else if name = "." then .error .invalidName
  else if name = ".." then .error .invalidName
  else if 255 < name.utf8ByteSize then .error .invalidName
  else .ok ()

/-- The directory tree written by `Repository::init_opts` with `bare(true)`:
the standard bare layout (head reference file, config, object database,
refs namespace).  File sizes/mtimes are nominal constants. -/
def bareRepoLayout : FsNode :=
  .dir 0
    [("HEAD", .file 23 0),
     ("config", .file 66 0),
     ("description", .file 73 0),
     ("hooks", .dir 0 []),
     ("info", .dir 0 [("exclude", .file 113 0)]),
     ("objects", .dir 0 [("info", .dir 0 []), ("pack", .dir 0 [])]),
     ("refs", .dir 0 [("heads", .dir 0 []), ("tags", .dir 0 [])])]

/-- `LocalGitHub::create_repo`. -/
def create_repo (hub : List String) (fs : FsNode) (name : String) :
    Except HubError (List String) × FsNode :=
  match validate_repo_name name with
  | .error e => (.error e, fs)
  | .ok () =>
    let target := repoTarget hub name
    if (fs.lookup target).isSome then (.error .alreadyExists, fs)
    else if canCreateAt fs target then (.ok target, fs.insertAt target bareRepoLayout)
    else (.error .ioFailure, fs)

/-- Rust `Path::extension` on a file name: the portion after the last `.`
that occurs at position ≥ 1; `none` when there is no such dot (in
particular for a name that is exactly `".git"`). -/
def rustExtension (f : String) : Option String :=
  match f.data with
  | [] => none
  | _ :: rest => (afterLastDot rest).map String.mk
where afterLastDot : List Char → Option (List Char)
  | [] => none
  | '.' :: rest => some ((afterLastDot rest).getD rest)
  | _ :: rest => afterLastDot rest

/-- The entry filter of `list_repos`:
`path.is_dir() && path.extension().map_or(false, |e| e == "git")`. -/
def isGitDirEntry (kv : String × FsNode) : Bool :=
  kv.2.isDirNode && (rustExtension kv.1 == some "git")

/-- `LocalGitHub::list_repos`.  `Vec::<String>::sort` sorts by byte-wise
lexicographic order (`strLeB`); since that order is antisymmetric, every
correct sort produces the same list, so the stable `insertionSort` is
extensionally the sort used. -/
def list_repos (hub : List String) (fs : FsNode) : Except HubError (List String) :=
  match fs.lookup (resolvePath hub) with
  | none => .ok []
  | some (.file _ _) => .error .ioFailure
  | some (.dir _ cs) =>
    .ok (List.insertionSort (fun a b => strLeB a b = true)
      ((cs.filter isGitDirEntry).map Prod.fst))

/-- Rust `str::to_lowercase`, modelled character-wise. -/
def rustToLowercase (s : String) : String :=
  String.mk (s.data.map Char.toLower)

/-- Rust `str::contains(&str)`: substring containment (the empty pattern is
contained in every string). -/
def strContains (hay pat : String) : Bool :=
  go pat.data hay.data
where go (p : List Char) : List Char → Bool
  | [] => p.isEmpty
  | c :: rest => p.isPrefixOf (c :: rest) || go p rest

/-- The filter predicate of `search_repos`:
`name.to_lowercase().contains(&pattern.to_lowercase())`. -/
def matchesPattern (pattern name : String) : Bool :=
  strContains (rustToLowercase name) (rustToLowercase pattern)

/-- `LocalGitHub::search_repos`. -/
def search_repos (hub : List String) (fs : FsNode) (pattern : String) :
    Except HubError (List String) :=
  match list_repos hub fs with
  | .error e => .error e
  | .ok all => .ok (all.filter (matchesPattern pattern))

/-- `LocalGitHub::is_valid_git_repo`: the head-reference file, the object
database directory and the refs directory must all exist below `path`. -/
def is_valid_git_repo (fs : FsNode) (path : List String) : Bool :=
  (fs.lookup (path ++ ["HEAD"])).isSome &&
  (fs.lookup (path ++ ["objects"])).isSome &&
  (fs.lookup (path ++ ["refs"])).isSome

/-- `LocalGitHub::delete_repo`. -/
def delete_repo (hub : List String) (fs : FsNode) (name : String) :
    Except HubError Unit × FsNode :=
  let target := repoTarget hub name
  if (fs.lookup target).isNone then (.error .notFound, fs)
  else if !is_valid_git_repo fs target then (.error .invalidRepository, fs)
  else (.ok (), FsNode.removeAt target fs)

/-- `LocalGitHub::repo_exists`. -/
def repo_exists (hub : List String) (fs : FsNode) (name : String) : Bool :=
  (fs.lookup (repoTarget hub name)).isSome

/-- `LocalGitHub::get_repo_path`. -/
def get_repo_path (hub : List String) (fs : FsNode) (name : String) :
    Except HubError (List String) :=
  let target := repoTarget hub name
  if (fs.lookup target).isSome then .ok target else .error .notFound

/-- `RepoInfo` (hub.rs): the derived per-repository metadata record. -/
structure RepoInfo where
  name : String
  path : List String
  size : Nat
  modified : Nat
  commits : Option Nat

/-- `LocalGitHub::get_repo_info`.  `commitCount` abstracts the external
libgit2 history walk `get_commit_count` (absent commit count included). -/
def get_repo_info (commitCount : FsNode → Option Nat) (hub : List String)
    (fs : FsNode) (name : String) : Except HubError RepoInfo :=
  let rn := rustRepoName name
  let target := resolvePath (joinPath hub rn)
  match fs.lookup target with
  | none => .error .notFound
  | some node =>
    .ok { name := rn, path := target, size := get_dir_size node,
          modified := node.mtime, commits := commitCount node }

/-! ## The remote configurator (`src/remote.rs`) -/

/-- Error taxonomy for the remote configurator. -/
inductive RemoteError where
  | alreadyExists
  | redundantPushUrl
  | notFound
deriving DecidableEq, Repr

/-- A configured remote: name and primary (fetch) URL, as reported by
`git2::Remote::name`/`url`. -/
structure GitRemote where
  name : String
  url : String
deriving DecidableEq, Repr

/-- The state of an opened working repository: its remotes (in listing
order) and its git config, a single-valued key/value store. -/
structure RepoState where
  remotes : List GitRemote
  config : List (String × String)
deriving DecidableEq, Repr

/-- `git2::Config::get_string`. -/
def lookupCfg : List (String × String) → String → Option String
  | [], _ => none
  | (k, v) :: rest, key => if k = key then some v else lookupCfg rest key

/-- `git2::Config::set_str`: replace the value of `key`, or append the
binding if the key is not yet present. -/
def setCfg : List (String × String) → String → String → List (String × String)
  | [], key, v => [(key, v)]
  | (k, w) :: rest, key, v =>
    if k = key then (k, v) :: rest else (k, w) :: setCfg rest key v

/-- `git2::Repository::find_remote`. -/
def findRemote (st : RepoState) (name : String) : Option GitRemote :=
  st.remotes.find? (fun r => r.name == name)

/-- The config key `format!("remote.{}.pushurl", remote_name)`. -/
def pushUrlKey (name : String) : String :=
  "remote." ++ name ++ ".pushurl"

/-- `RemoteManager::add_local_remote` on an opened repository.
`Repository::remote` appends the remote and records its URL and default
fetch refspec in the config. -/
def add_local_remote (st : RepoState) (name url : String) :
    Except RemoteError Unit × RepoState :=
  if (findRemote st name).isSome then (.error .alreadyExists, st)
  else
    (.ok (), { st with
      remotes := st.remotes ++ [⟨name, url⟩],
      config :=
        setCfg (setCfg st.config ("remote." ++ name ++ ".url") url)
          ("remote." ++ name ++ ".fetch")
          ("+refs/heads/*:refs/remotes/" ++ name ++ "/*") })

/-- `RemoteManager::add_push_url` on an opened repository. -/
def add_push_url (st : RepoState) (name url : String) :
    Except RemoteError Unit × RepoState :=
  let key := pushUrlKey name
  match lookupCfg st.config key with
  | some existing =>
    if existing = url then (.error .redundantPushUrl, st)
    else (.ok (), { st with config := setCfg st.config key url })
  | none => (.ok (), { st with config := setCfg st.config key url })

/-- The `(name, url)` pairs `list_remotes` emits for one remote: the primary
pair, then the synthetic `"<name> (push)"` pair when a push URL exists and
differs from the primary URL. -/
def remoteEntries (cfg : List (String × String)) (r : GitRemote) :
    List (String × String) :=
  (r.name, r.url) ::
    (match lookupCfg cfg (pushUrlKey r.name) with
     | some pu => if pu = r.url then [] else [(r.name ++ " (push)", pu)]
     | none => [])

/-- `RemoteManager::list_remotes` on an opened repository. -/
def list_remotes (st : RepoState) : List (String × String) :=
  st.remotes.flatMap (remoteEntries st.config)

/-- The number of bindings a config holds for `key`. -/
def countKey (cfg : List (String × String)) (key : String) : Nat :=
  cfg.countP (fun kv => kv.1 == key)

/-! ## Shared concrete fixtures for witnesses and counterexamples -/

/-- A hub root directory `hub` that already exists and is empty. -/
def fsEmptyHub : FsNode := .dir 0 [("hub", .dir 0 [])]

/-- A hub root containing one well-formed bare repository `proj.git`. -/
def fsProjHub : FsNode := .dir 0 [("hub", .dir 0 [("proj.git", bareRepoLayout)])]

/-- A 252-character name: valid, but its `.git`-suffixed form is 256 bytes. -/
def name252 : String := String.mk (List.replicate 252 'a')

/-- A hub root next to an unrelated, structurally valid bare directory
`victim.git` that is NOT inside the hub. -/
def fsVictim : FsNode :=
  .dir 0 [("hub", .dir 0 [("proj.git", bareRepoLayout)]),
          ("victim.git", bareRepoLayout)]

/-- A directory `x.git` under the hub root that is NOT a valid bare
repository (no head-reference file, no object database, no refs). -/
def fsBogus : FsNode := .dir 0 [("hub", .dir 0 [("x.git", .dir 0 [])])]

/-- The listing as the words of C7 describe it, for comparison with the
code's `list_repos`: the filter keeps directories whose *name ends with*
the bare-repo suffix `".git"` (instead of testing the path extension). -/
def list_repos_bySuffix (hub : List String) (fs : FsNode) :
    Except HubError (List String) :=
  match fs.lookup (resolvePath hub) with
  | none => .ok []
  | some (.file _ _) => .error .ioFailure
  | some (.dir _ cs) =>
    .ok (List.insertionSort (fun a b => strLeB a b = true)
      ((cs.filter (fun kv => kv.2.isDirNode && strEndsWith kv.1 ".git")).map Prod.fst))

/-- A hub root whose only entry is a directory named exactly `.git`. -/
def fsDotGit : FsNode := .dir 0 [("hub", .dir 0 [(".git", .dir 0 [])])]

/-- A hub root with two repositories whose names differ in case. -/
def fsTwo : FsNode :=
  .dir 0 [("hub", .dir 0 [("alpha.git", bareRepoLayout), ("Proj.git", bareRepoLayout)])]

/-- A repository with one remote `origin` and no push URL yet. -/
def stOrigin : RepoState := ⟨[⟨"origin", "u0"⟩], [("remote.origin.url", "u0")]⟩

/-- A repository with two remotes and an existing push URL on `backup`. -/
def stTwoRemotes : RepoState :=
  ⟨[⟨"origin", "u0"⟩, ⟨"backup", "u1"⟩],
   [("remote.origin.url", "u0"), ("remote.backup.url", "u1"),
    ("remote.backup.pushurl", "x")]⟩

/-- A working repository with no remotes configured. -/
def stEmpty : RepoState := ⟨[], []⟩

/-! ## Helper lemmas about the filesystem model -/

theorem lookupChild_setChild (cs : List (String × FsNode)) (name : String) (v : FsNode) :
    lookupChild (setChild cs name v) name = some v := by
  induction cs with
  | nil => simp [setChild, lookupChild]
  | cons kv rest ih =>
    by_cases hk : kv.1 = name
    · simp [setChild, hk, lookupChild]
    · simp [setChild, hk, lookupChild, ih]

theorem canCreateAt_fresh (p : List String) : canCreateAt (.dir 0 []) p = true := by
  cases p <;> simp [canCreateAt, lookupChild]

theorem lookup_insertAt (p : List String) (v : FsNode) (fs : FsNode)
    (h : canCreateAt fs p = true) : (fs.insertAt p v).lookup p = some v := by
  induction p generalizing fs with
  | nil => cases fs <;> simp [FsNode.insertAt, FsNode.lookup]
  | cons name rest ih =>
    cases fs with
    | file sz mt => simp [canCreateAt] at h
    | dir mt cs =>
      simp only [FsNode.insertAt, FsNode.lookup, lookupChild_setChild]
      apply ih
      simp only [canCreateAt] at h
      cases hc : lookupChild cs name with
      | some c => rw [hc] at h; simpa using h
      | none => simp [canCreateAt_fresh]

theorem lookupChild_filter_ne (cs : List (String × FsNode)) (name : String) :
    lookupChild (cs.filter (fun kv => !(kv.1 == name))) name = none := by
  induction cs with
  | nil => rfl
  | cons kv rest ih =>
    obtain ⟨k, w⟩ := kv
    rw [List.filter_cons]
    by_cases hk : k = name
    · simp [hk, ih]
    · have hb : (k == name) = false := beq_false_of_ne hk
      simp [hb, lookupChild, hk, ih]

theorem lookupChild_map_modify (cs : List (String × FsNode)) (name : String)
    (g : FsNode → FsNode) :
    lookupChild (cs.map (fun kv => (kv.1, if kv.1 = name then g kv.2 else kv.2))) name
      = (lookupChild cs name).map g := by
  induction cs with
  | nil => rfl
  | cons kv rest ih =>
    obtain ⟨k, w⟩ := kv
    rw [List.map_cons]
    by_cases hk : k = name
    · subst hk
      simp [lookupChild, ih]
    · simp [lookupChild, hk, ih]

theorem lookup_removeAt (p : List String) (fs : FsNode) (h : p ≠ []) :
    (FsNode.removeAt p fs).lookup p = none := by
  induction p generalizing fs with
  | nil => simp at h
  | cons name rest ih =>
    cases fs with
    | file sz mt => simp [FsNode.removeAt, FsNode.lookup]
    | dir mt cs =>
      cases rest with
      | nil =>
        simp [FsNode.removeAt, FsNode.lookup, lookupChild_filter_ne]
      | cons r rs =>
        simp only [FsNode.removeAt, FsNode.lookup]
        rw [lookupChild_map_modify]
        cases hc : lookupChild cs name with
        | none => simp
        | some c => simp [ih c (by simp)]

/-! ## Helper lemmas about paths and names -/

theorem splitPathGo_getLast (rest : List Char) :
    ∀ cur c, rest.getLast? = some c → c ≠ '/' →
      ∃ init p, splitPathGo cur rest = init ++ [p] ∧ p.data.getLast? = some c := by
  induction rest with
  | nil => intro cur c hc; simp at hc
  | cons d rest' ih =>
    intro cur c hc hslash
    cases rest' with
    | nil =>
      simp at hc
      subst hc
      refine ⟨[], String.mk (d :: cur).reverse, ?_, ?_⟩
      · simp [splitPathGo, hslash]
      · simp [List.getLast?_reverse]
    | cons e rs =>
      rw [List.getLast?_cons_cons] at hc
      by_cases hd : d = '/'
      · subst hd
        have hstep : splitPathGo cur ('/' :: e :: rs) =
            if cur.isEmpty then splitPathGo [] (e :: rs)
            else String.mk cur.reverse :: splitPathGo [] (e :: rs) := rfl
        by_cases hcur : cur.isEmpty
        · obtain ⟨init, p, hsp, hl⟩ := ih [] c hc hslash
          exact ⟨init, p, by rw [hstep, if_pos hcur, hsp], hl⟩
        · obtain ⟨init, p, hsp, hl⟩ := ih [] c hc hslash
          refine ⟨String.mk cur.reverse :: init, p, ?_, hl⟩
          rw [hstep, if_neg hcur, hsp]
          simp
      · have hstep : splitPathGo cur (d :: e :: rs) =
            if d = '/' then
              (if cur.isEmpty then splitPathGo [] (e :: rs)
               else String.mk cur.reverse :: splitPathGo [] (e :: rs))
            else splitPathGo (d :: cur) (e :: rs) := rfl
        obtain ⟨init, p, hsp, hl⟩ := ih (d :: cur) c hc hslash
        exact ⟨init, p, by rw [hstep, if_neg hd, hsp], hl⟩

theorem rustRepoName_getLast (name : String) :
    (rustRepoName name).data.getLast? = some 't' := by
  unfold rustRepoName
  by_cases h : strEndsWith name ".git" = true
  · rw [if_pos h]
    unfold strEndsWith at h
    have hsuf : ".git".data <:+ name.data := List.isSuffixOf_iff_suffix.mp h
    obtain ⟨t, ht⟩ := hsuf
    rw [← ht, List.getLast?_append]
    rfl
  · rw [if_neg h, String.data_append, List.getLast?_append]
    rfl

theorem resolvePath_append (l₁ l₂ : List String) :
    resolvePath (l₁ ++ l₂) = l₂.foldl resolveComp (resolvePath l₁) := by
  unfold resolvePath
  exact List.foldl_append _ _ _ _

theorem repoTarget_ne_nil (hub : List String) (name : String) :
    repoTarget hub name ≠ [] := by
  obtain ⟨init, p, hsp, hl⟩ :=
    splitPathGo_getLast (rustRepoName name).data [] 't' (rustRepoName_getLast name)
      (by decide)
  have hdot : p ≠ "." := by
    intro he
    rw [he] at hl
    simp at hl
  have hdots : p ≠ ".." := by
    intro he
    rw [he] at hl
    simp at hl
  have hsplit : splitPath (rustRepoName name) = init ++ [p] := hsp
  unfold repoTarget joinPath
  by_cases habs : strStartsWith (rustRepoName name) "/" = true
  · rw [if_pos habs, hsplit, resolvePath_append]
    simp [resolveComp, hdot, hdots]
  · rw [if_neg habs, hsplit, ← List.append_assoc, resolvePath_append]
    simp [resolveComp, hdot, hdots]

theorem length_le_utf8ByteSize (s : String) : s.length ≤ s.utf8ByteSize := by
  obtain ⟨l⟩ := s
  show l.length ≤ String.utf8ByteSize.go l
  induction l with
  | nil => simp [String.utf8ByteSize.go]
  | cons c cs ih =>
    have := Char.utf8Size_pos c
    simp only [List.length_cons, String.utf8ByteSize.go]
    omega

/-! ## Helper lemmas about the config store -/

theorem lookupCfg_setCfg_self (cfg : List (String × String)) (key v : String) :
    lookupCfg (setCfg cfg key v) key = some v := by
  induction cfg with
  | nil => simp [setCfg, lookupCfg]
  | cons kv rest ih =>
    obtain ⟨k, w⟩ := kv
    by_cases hk : k = key
    · simp [setCfg, hk, lookupCfg]
    · simp [setCfg, hk, lookupCfg, ih]

theorem lookupCfg_setCfg_ne (cfg : List (String × String)) (key v k' : String)
    (h : k' ≠ key) : lookupCfg (setCfg cfg key v) k' = lookupCfg cfg k' := by
  induction cfg with
  | nil => simp [setCfg, lookupCfg, Ne.symm h]
  | cons kv rest ih =>
    obtain ⟨k, w⟩ := kv
    by_cases hk : k = key
    · subst hk
      simp [setCfg, lookupCfg, Ne.symm h]
    · simp [setCfg, hk, lookupCfg, ih]

theorem countKey_setCfg_present (cfg : List (String × String)) (key v : String)
    (h : (lookupCfg cfg key).isSome) :
    countKey (setCfg cfg key v) key = countKey cfg key := by
  induction cfg with
  | nil => simp [lookupCfg] at h
  | cons kv rest ih =>
    obtain ⟨k, w⟩ := kv
    by_cases hk : k = key
    · subst hk
      simp [setCfg, countKey, List.countP_cons]
    · have hb : (k == key) = false := beq_false_of_ne hk
      simp only [lookupCfg, if_neg hk] at h
      simp [setCfg, hk, countKey, List.countP_cons, hb] at ih ⊢
      exact ih h

/-! ## Claim theorems -/

/-- C9: for every name that is empty, longer than 255 characters, equal to
`.` or `..`, or containing one of the forbidden characters
`/ \ : * ? " < > |`, `create` fails with `InvalidName` and the hub state is
unchanged (no directory is created). -/
theorem c9_create_invalid_name (hub : List String) (fs : FsNode) (name : String)
    (h : name = "" ∨ 255 < name.length ∨ name = "." ∨ name = ".." ∨
         ∃ c ∈ ['/', '\\', ':', '*', '?', '"', '<', '>', '|'], c ∈ name.data) :
    create_repo hub fs name = (.error .invalidName, fs) := by
  have hv : validate_repo_name name = .error .invalidName := by
    unfold validate_repo_name
    split_ifs with h1 h2 h3 h4 h5
    · rfl
    · rfl
    · rfl
    · rfl
    · rfl
    · exfalso
      rcases h with h | h | h | h | ⟨c, hc, hmem⟩
      · exact h1 h
      · exact h5 (lt_of_lt_of_le h (length_le_utf8ByteSize name))
      · exact h3 h
      · exact h4 h
      · exact h2 (List.any_eq_true.mpr ⟨c, hmem, by simpa using hc⟩)
  unfold create_repo
  rw [hv]

/-- Witness for C9 at the concrete invalid name `"a/b"`. -/
theorem c9_create_invalid_name_witness :
    create_repo ["hub"] fsEmptyHub "a/b" = (.error .invalidName, fsEmptyHub) :=
  c9_create_invalid_name ["hub"] fsEmptyHub "a/b"
    (Or.inr (Or.inr (Or.inr (Or.inr ⟨'/', by decide, by decide⟩))))

/-- C1 (amended): after a successful `create(name)`, `exists(name)` is true,
and a second `create` with any *valid* name normalizing to the same suffixed
directory name fails with `AlreadyExists` leaving the hub state unchanged. -/
theorem c1_create_exists_already (hub : List String) (fs : FsNode) (name : String)
    (p : List String) (fs' : FsNode)
    (h : create_repo hub fs name = (.ok p, fs')) :
    repo_exists hub fs' name = true ∧
    ∀ name₂, validate_repo_name name₂ = .ok () →
      rustRepoName name₂ = rustRepoName name →
      create_repo hub fs' name₂ = (.error .alreadyExists, fs') := by
  unfold create_repo at h
  cases hv : validate_repo_name name with
  | error e => rw [hv] at h; simp at h
  | ok u =>
    cases u
    rw [hv] at h
    simp only at h
    by_cases hex : (fs.lookup (repoTarget hub name)).isSome = true
    · rw [if_pos hex] at h
      simp at h
    · rw [if_neg hex] at h
      by_cases hcc : canCreateAt fs (repoTarget hub name) = true
      · rw [if_pos hcc] at h
        have h2 : fs.insertAt (repoTarget hub name) bareRepoLayout = fs' :=
          congrArg Prod.snd h
        have hlk : fs'.lookup (repoTarget hub name) = some bareRepoLayout := by
          rw [← h2]
          exact lookup_insertAt _ _ _ hcc
        constructor
        · unfold repo_exists
          rw [hlk]
          rfl
        · intro name₂ hv₂ hrn
          have htgt : repoTarget hub name₂ = repoTarget hub name := by
            unfold repoTarget
            rw [hrn]
          unfold create_repo
          rw [hv₂]
          simp only [htgt, hlk]
          rfl
      · rw [if_neg hcc] at h
        simp at h

/-- Witness for C1 with `create("proj")` then `create("proj.git")` on an
empty hub. -/
theorem c1_create_exists_already_witness :
    repo_exists ["hub"] (create_repo ["hub"] fsEmptyHub "proj").2 "proj" = true ∧
    create_repo ["hub"] (create_repo ["hub"] fsEmptyHub "proj").2 "proj.git"
      = (.error .alreadyExists, (create_repo ["hub"] fsEmptyHub "proj").2) := by
  have h := c1_create_exists_already ["hub"] fsEmptyHub "proj"
    ["hub", "proj.git"] (create_repo ["hub"] fsEmptyHub "proj").2 rfl
  exact ⟨h.1, h.2 "proj.git" rfl rfl⟩

set_option maxRecDepth 40000 in
/-- Counterexample to C1 as stated: `name252` is a valid 252-byte name, and
`name252 ++ ".git"` normalizes to the same suffixed directory name, but the
second `create` fails with `InvalidName` (the 256-byte name fails validation,
which runs before the existence check), not with `AlreadyExists`. -/
theorem c1_counterexample :
    validate_repo_name name252 = .ok () ∧
    (create_repo ["hub"] fsEmptyHub name252).1 = .ok ["hub", name252 ++ ".git"] ∧
    rustRepoName (name252 ++ ".git") = rustRepoName name252 ∧
    (create_repo ["hub"] (create_repo ["hub"] fsEmptyHub name252).2
        (name252 ++ ".git")).1 = .error .invalidName ∧
    HubError.invalidName ≠ HubError.alreadyExists := by
  refine ⟨rfl, rfl, rfl, rfl, by decide⟩

/-- C2: `delete(name)` fails with `NotFound` when nothing exists at the
normalized path; fails with `InvalidRepository`, leaving the filesystem
untouched, when an entry exists there but the head-reference file, object
database or refs directory is missing; otherwise it removes the whole
directory tree, after which nothing exists at the path. -/
theorem c2_delete_repo_cases (hub : List String) (fs : FsNode) (name : String) :
    (fs.lookup (repoTarget hub name) = none →
      delete_repo hub fs name = (.error .notFound, fs)) ∧
    (∀ node, fs.lookup (repoTarget hub name) = some node →
      is_valid_git_repo fs (repoTarget hub name) = false →
      delete_repo hub fs name = (.error .invalidRepository, fs)) ∧
    (∀ node, fs.lookup (repoTarget hub name) = some node →
      is_valid_git_repo fs (repoTarget hub name) = true →
      delete_repo hub fs name = (.ok (), FsNode.removeAt (repoTarget hub name) fs) ∧
      (FsNode.removeAt (repoTarget hub name) fs).lookup (repoTarget hub name)
        = none) := by
  refine ⟨?_, ?_, ?_⟩
  · intro h
    unfold delete_repo
    simp only [h]
    rfl
  · intro node hn hv
    unfold delete_repo
    simp only [hn, hv]
    rfl
  · intro node hn hv
    constructor
    · unfold delete_repo
      simp only [hn, hv]
      rfl
    · exact lookup_removeAt _ fs (repoTarget_ne_nil hub name)

/-- Witness for C2: deleting the well-formed `proj.git` succeeds and removes
it; the fixture also exercises the success branch of the case split. -/
theorem c2_delete_repo_cases_witness :
    delete_repo ["hub"] fsProjHub "proj"
      = (.ok (), FsNode.removeAt (repoTarget ["hub"] "proj") fsProjHub) ∧
    (FsNode.removeAt (repoTarget ["hub"] "proj") fsProjHub).lookup
      (repoTarget ["hub"] "proj") = none :=
  (c2_delete_repo_cases ["hub"] fsProjHub "proj").2.2 bareRepoLayout rfl rfl

/-! ## Extraction lemmas for the remote configurator -/

theorem add_push_url_ok (st : RepoState) (n u : String) (st' : RepoState)
    (h : add_push_url st n u = (.ok (), st')) :
    st' = { st with config := setCfg st.config (pushUrlKey n) u } := by
  simp only [add_push_url] at h
  cases hc : lookupCfg st.config (pushUrlKey n) with
  | none =>
    rw [hc] at h
    simp only at h
    exact (congrArg Prod.snd h).symm
  | some e =>
    rw [hc] at h
    simp only at h
    by_cases he : e = u
    · rw [if_pos he] at h
      simp at h
    · rw [if_neg he] at h
      exact (congrArg Prod.snd h).symm

theorem add_local_remote_ok (st : RepoState) (n u : String) (st₁ : RepoState)
    (h : add_local_remote st n u = (.ok (), st₁)) :
    st₁ = { st with
      remotes := st.remotes ++ [⟨n, u⟩],
      config :=
        setCfg (setCfg st.config ("remote." ++ n ++ ".url") u)
          ("remote." ++ n ++ ".fetch")
          ("+refs/heads/*:refs/remotes/" ++ n ++ "/*") } := by
  unfold add_local_remote at h
  by_cases hf : (findRemote st n).isSome = true
  · rw [if_pos hf] at h
    simp at h
  · rw [if_neg hf] at h
    exact (congrArg Prod.snd h).symm

/-! ## More claim theorems -/

/-- C10: `delete`, `info`, `path` and `exists` apply suffix normalization but
no name validation: for the name `"../victim"` (which `validate_repo_name`
rejects), the target resolves to `victim.git` *outside* the hub root, all
four operations address it there, and `delete` recursively removes it while
the hub root's own contents stay untouched. -/
theorem c10_normalization_without_validation :
    validate_repo_name "../victim" = .error .invalidName ∧
    repoTarget ["hub"] "../victim" = ["victim.git"] ∧
    List.isPrefixOf ["hub"] ["victim.git"] = false ∧
    repo_exists ["hub"] fsVictim "../victim" = true ∧
    get_repo_path ["hub"] fsVictim "../victim" = .ok ["victim.git"] ∧
    (∀ commitCount, get_repo_info commitCount ["hub"] fsVictim "../victim"
      = .ok { name := "../victim.git", path := ["victim.git"],
              size := get_dir_size bareRepoLayout, modified := 0,
              commits := commitCount bareRepoLayout }) ∧
    (delete_repo ["hub"] fsVictim "../victim").1 = .ok () ∧
    (delete_repo ["hub"] fsVictim "../victim").2.lookup ["victim.git"] = none ∧
    (delete_repo ["hub"] fsVictim "../victim").2.lookup ["hub", "proj.git"]
      = fsVictim.lookup ["hub", "proj.git"] :=
  ⟨rfl, rfl, rfl, rfl, rfl, fun _ => rfl, rfl, rfl, rfl⟩

/-- C3 (amended): a repository name is observable via `exists` iff *some*
filesystem entry (valid or not, directory or file) sits at the normalized
path; it is observable via `list` iff a directory with git extension sits
directly under the hub root; structural validity is checked only by
`delete`. -/
theorem c3_observability (hub : List String) (fs : FsNode) (name : String) :
    (repo_exists hub fs name = true ↔
      ∃ node, fs.lookup (repoTarget hub name) = some node) ∧
    (∀ mt cs l nm, fs.lookup (resolvePath hub) = some (.dir mt cs) →
      list_repos hub fs = .ok l →
      (nm ∈ l ↔ ∃ node, (nm, node) ∈ cs ∧ node.isDirNode = true ∧
        rustExtension nm = some "git")) ∧
    (∀ node, fs.lookup (repoTarget hub name) = some node →
      is_valid_git_repo fs (repoTarget hub name) = false →
      (delete_repo hub fs name).1 = .error .invalidRepository) := by
  refine ⟨?_, ?_, ?_⟩
  · unfold repo_exists
    exact Option.isSome_iff_exists
  · intro mt cs l nm hdir hl
    unfold list_repos at hl
    rw [hdir] at hl
    simp only at hl
    have hleq : List.insertionSort (fun a b => strLeB a b = true)
        ((cs.filter isGitDirEntry).map Prod.fst) = l := Except.ok.inj hl
    rw [← hleq, (List.perm_insertionSort _ _).mem_iff, List.mem_map]
    constructor
    · rintro ⟨⟨nm', node⟩, hmem, hfst⟩
      rw [List.mem_filter] at hmem
      subst hfst
      refine ⟨node, hmem.1, ?_, ?_⟩
      · exact (Bool.and_eq_true _ _ ▸ hmem.2).1
      · have := (Bool.and_eq_true _ _ ▸ hmem.2).2
        simpa using this
    · rintro ⟨node, hmem, hdirn, hext⟩
      refine ⟨(nm, node), ?_, rfl⟩
      rw [List.mem_filter]
      refine ⟨hmem, ?_⟩
      unfold isGitDirEntry
      rw [hdirn, hext]
      simp
  · intro node hn hv
    unfold delete_repo
    simp only [hn, hv]
    rfl

/-- Witness for C3 on the one-repository hub. -/
theorem c3_observability_witness :
    repo_exists ["hub"] fsProjHub "proj" = true ∧
    "proj.git" ∈ ["proj.git"] := by
  have h := c3_observability ["hub"] fsProjHub "proj"
  refine ⟨h.1.mpr ⟨bareRepoLayout, rfl⟩, ?_⟩
  exact (h.2.1 0 [("proj.git", bareRepoLayout)] ["proj.git"] "proj.git" rfl rfl).mpr
    ⟨bareRepoLayout, by simp, rfl, rfl⟩

/-- Counterexample to C3 as stated: `exists("x")` is true and `list` reports
`x.git` although the directory fails the structural bare-repository check,
so observability does NOT imply structural validity. -/
theorem c3_counterexample :
    repo_exists ["hub"] fsBogus "x" = true ∧
    is_valid_git_repo fsBogus (repoTarget ["hub"] "x") = false ∧
    list_repos ["hub"] fsBogus = .ok ["x.git"] :=
  ⟨rfl, rfl, rfl⟩

theorem charsLe_cons_iff (x y : Char) (xs ys : List Char) :
    charsLe (x :: xs) (y :: ys) = true ↔
      (x < y ∨ (x = y ∧ charsLe xs ys = true)) := by
  rcases lt_trichotomy x y with h | h | h
  · simp [charsLe, h]
  · subst h
    simp [charsLe, lt_self_iff_false]
  · simp [charsLe, lt_asymm h, h, h.ne']

theorem charsLe_total (a b : List Char) : charsLe a b = true ∨ charsLe b a = true := by
  induction a generalizing b with
  | nil => exact Or.inl rfl
  | cons x xs ih =>
    cases b with
    | nil => exact Or.inr rfl
    | cons y ys =>
      rcases lt_trichotomy x y with h | h | h
      · exact Or.inl ((charsLe_cons_iff _ _ _ _).mpr (Or.inl h))
      · subst h
        rcases ih ys with h2 | h2
        · exact Or.inl ((charsLe_cons_iff _ _ _ _).mpr (Or.inr ⟨rfl, h2⟩))
        · exact Or.inr ((charsLe_cons_iff _ _ _ _).mpr (Or.inr ⟨rfl, h2⟩))
      · exact Or.inr ((charsLe_cons_iff _ _ _ _).mpr (Or.inl h))

theorem charsLe_trans (a b c : List Char) (h1 : charsLe a b = true)
    (h2 : charsLe b c = true) : charsLe a c = true := by
  induction a generalizing b c with
  | nil => rfl
  | cons x xs ih =>
    cases b with
    | nil => simp [charsLe] at h1
    | cons y ys =>
      cases c with
      | nil => simp [charsLe] at h2
      | cons z zs =>
        rw [charsLe_cons_iff] at h1 h2 ⊢
        rcases h1 with hxy | ⟨hxy, h1'⟩ <;> rcases h2 with hyz | ⟨hyz, h2'⟩
        · exact Or.inl (lt_trans hxy hyz)
        · exact Or.inl (hyz ▸ hxy)
        · exact Or.inl (by rw [hxy]; exact hyz)
        · exact Or.inr ⟨hxy.trans hyz, ih _ _ h1' h2'⟩

/-- C7 (amended): `list()` returns exactly the names of the immediate
subdirectories of the hub root whose path extension is `git` (equivalently:
ending in the bare-repo suffix but not named exactly `.git`), sorted
lexicographically, and returns an empty sequence — not an error — when the
hub root does not exist. -/
theorem c7_list_repos (hub : List String) (fs : FsNode) :
    (fs.lookup (resolvePath hub) = none → list_repos hub fs = .ok []) ∧
    (∀ mt cs, fs.lookup (resolvePath hub) = some (.dir mt cs) →
      ∃ l, list_repos hub fs = .ok l ∧
        l.Perm ((cs.filter isGitDirEntry).map Prod.fst) ∧
        l.Sorted (fun a b => strLeB a b = true)) := by
  constructor
  · intro h
    unfold list_repos
    rw [h]
  · intro mt cs h
    haveI : IsTrans String (fun a b => strLeB a b = true) :=
      ⟨fun a b c h1 h2 => charsLe_trans a.data b.data c.data h1 h2⟩
    haveI : IsTotal String (fun a b => strLeB a b = true) :=
      ⟨fun a b => charsLe_total a.data b.data⟩
    refine ⟨List.insertionSort (fun a b => strLeB a b = true)
      ((cs.filter isGitDirEntry).map Prod.fst),
      ?_, List.perm_insertionSort _ _, List.sorted_insertionSort _ _⟩
    unfold list_repos
    rw [h]

/-- Witness for C7: a missing hub root lists as empty, and a populated hub
lists its git-extension subdirectories sorted. -/
theorem c7_list_repos_witness :
    list_repos ["nohub"] (.dir 0 []) = .ok [] ∧
    ∃ l, list_repos ["hub"] fsTwo = .ok l ∧
      l.Perm (([("alpha.git", bareRepoLayout),
        ("Proj.git", bareRepoLayout)].filter isGitDirEntry).map Prod.fst) ∧
      l.Sorted (fun a b => strLeB a b = true) :=
  ⟨(c7_list_repos ["nohub"] (.dir 0 [])).1 rfl,
   (c7_list_repos ["hub"] fsTwo).2 0
     [("alpha.git", bareRepoLayout), ("Proj.git", bareRepoLayout)] rfl⟩

/-- Counterexample to C7 as stated: a directory named exactly `.git` ends
with the bare-repo suffix, yet `list_repos` omits it (its Rust path
extension is `None`), so the suffix-based description of the listing
disagrees with the code. -/
theorem c7_counterexample :
    strEndsWith ".git" ".git" = true ∧
    list_repos ["hub"] fsDotGit = .ok [] ∧
    list_repos_bySuffix ["hub"] fsDotGit = .ok [".git"] ∧
    list_repos ["hub"] fsDotGit ≠ list_repos_bySuffix ["hub"] fsDotGit := by
  refine ⟨rfl, rfl, rfl, ?_⟩
  intro h
  have e1 : list_repos ["hub"] fsDotGit = .ok [] := rfl
  have e2 : list_repos_bySuffix ["hub"] fsDotGit = .ok [".git"] := rfl
  rw [e1, e2] at h
  exact absurd (Except.ok.inj h) (by decide)

/-- C8: `search(pattern)` returns exactly the entries of `list()` whose
lowercased name contains the lowercased pattern as a substring, and the
result is a sublist of (hence order-preserving with respect to) `list()`. -/
theorem c8_search_filters (hub : List String) (fs : FsNode) (pattern : String)
    (all : List String) (h : list_repos hub fs = .ok all) :
    search_repos hub fs pattern = .ok (all.filter (matchesPattern pattern)) ∧
    (all.filter (matchesPattern pattern)).Sublist all := by
  constructor
  · unfold search_repos
    rw [h]
  · exact List.filter_sublist all

/-- Witness for C8: case-insensitive search for `"RO"` over a two-entry
listing. -/
theorem c8_search_filters_witness :
    search_repos ["hub"] fsTwo "RO"
      = .ok ((["Proj.git", "alpha.git"]).filter (matchesPattern "RO")) ∧
    ((["Proj.git", "alpha.git"]).filter (matchesPattern "RO")).Sublist
      ["Proj.git", "alpha.git"] :=
  c8_search_filters ["hub"] fsTwo "RO" ["Proj.git", "alpha.git"] rfl

/-- C4: `add_push_url` fails with `RedundantPushUrl`, leaving the repository
state unchanged, exactly when the configured push URL already equals the new
URL; otherwise it sets the single `remote.<name>.pushurl` binding, and a
second call with a different URL overwrites that binding without appending
another one. -/
theorem c4_add_push_url_spec (st : RepoState) (n u : String) :
    (add_push_url st n u = (.error .redundantPushUrl, st) ↔
      lookupCfg st.config (pushUrlKey n) = some u) ∧
    (∀ st', add_push_url st n u = (.ok (), st') →
      st' = { st with config := setCfg st.config (pushUrlKey n) u } ∧
      lookupCfg st'.config (pushUrlKey n) = some u ∧
      ∀ u₂ st'', u₂ ≠ u → add_push_url st' n u₂ = (.ok (), st'') →
        lookupCfg st''.config (pushUrlKey n) = some u₂ ∧
        countKey st''.config (pushUrlKey n) = countKey st'.config (pushUrlKey n)) := by
  constructor
  · constructor
    · intro h
      simp only [add_push_url] at h
      cases hc : lookupCfg st.config (pushUrlKey n) with
      | none =>
        rw [hc] at h
        simp only at h
        exact absurd (congrArg Prod.fst h) (by simp)
      | some e =>
        rw [hc] at h
        simp only at h
        by_cases he : e = u
        · rw [he]
        · rw [if_neg he] at h
          exact absurd (congrArg Prod.fst h) (by simp)
    · intro h
      simp only [add_push_url]
      rw [h]
      simp
  · intro st' h
    have hst' := add_push_url_ok st n u st' h
    subst hst'
    refine ⟨rfl, lookupCfg_setCfg_self _ _ _, ?_⟩
    intro u₂ st'' hne h₂
    have hst'' := add_push_url_ok _ n u₂ _ h₂
    subst hst''
    refine ⟨lookupCfg_setCfg_self _ _ _, ?_⟩
    exact countKey_setCfg_present _ _ _ (by simp [lookupCfg_setCfg_self])

/-- Witness for C4: setting a push URL on `origin`, then overwriting it. -/
theorem c4_add_push_url_spec_witness :
    (add_push_url stOrigin "origin" "p1").2
      = { stOrigin with config := setCfg stOrigin.config (pushUrlKey "origin") "p1" } ∧
    lookupCfg (add_push_url stOrigin "origin" "p1").2.config (pushUrlKey "origin")
      = some "p1" ∧
    lookupCfg (add_push_url (add_push_url stOrigin "origin" "p1").2 "origin"
        "p2").2.config (pushUrlKey "origin") = some "p2" ∧
    countKey (add_push_url (add_push_url stOrigin "origin" "p1").2 "origin"
        "p2").2.config (pushUrlKey "origin")
      = countKey (add_push_url stOrigin "origin" "p1").2.config (pushUrlKey "origin") := by
  have h := (c4_add_push_url_spec stOrigin "origin" "p1").2
    (add_push_url stOrigin "origin" "p1").2 rfl
  have h2 := h.2.2 "p2"
    (add_push_url (add_push_url stOrigin "origin" "p1").2 "origin" "p2").2
    (by decide) rfl
  exact ⟨h.1, h.2.1, h2.1, h2.2⟩

/-- C5: a successful `add_push_url` changes only the `remote.<name>.pushurl`
config binding: the remote list (primary fetch URLs included) and every
other config key are unchanged. -/
theorem c5_add_push_url_frame (st : RepoState) (n u : String) (st' : RepoState)
    (h : add_push_url st n u = (.ok (), st')) :
    st'.remotes = st.remotes ∧
    ∀ k, k ≠ pushUrlKey n → lookupCfg st'.config k = lookupCfg st.config k := by
  have hst' := add_push_url_ok st n u st' h
  subst hst'
  exact ⟨rfl, fun k hk => lookupCfg_setCfg_ne _ _ _ _ hk⟩

/-- Witness for C5: pushing a URL onto `origin` leaves `backup`'s
configuration untouched. -/
theorem c5_add_push_url_frame_witness :
    (add_push_url stTwoRemotes "origin" "p").2.remotes = stTwoRemotes.remotes ∧
    lookupCfg (add_push_url stTwoRemotes "origin" "p").2.config
        "remote.backup.pushurl"
      = lookupCfg stTwoRemotes.config "remote.backup.pushurl" := by
  have h := c5_add_push_url_frame stTwoRemotes "origin" "p"
    (add_push_url stTwoRemotes "origin" "p").2 rfl
  exact ⟨h.1, h.2 "remote.backup.pushurl" (by decide)⟩

/-- C6: after `add_local_remote` succeeds, `list_remotes` contains the pair
`(name, url)`; a subsequent `add_push_url` with a different URL makes the
synthetic `"<name> (push)"` pair appear immediately after the primary pair;
and a remote whose push URL equals its primary URL yields no synthetic
pair. -/
theorem c6_add_remote_list_round_trip (st : RepoState) (n u : String)
    (st₁ : RepoState) (h : add_local_remote st n u = (.ok (), st₁)) :
    (n, u) ∈ list_remotes st₁ ∧
    (∀ u' st₂, u' ≠ u → add_push_url st₁ n u' = (.ok (), st₂) →
      ∃ pre, list_remotes st₂ = pre ++ [(n, u), (n ++ " (push)", u')]) ∧
    (∀ cfg r, lookupCfg cfg (pushUrlKey r.name) = some r.url →
      remoteEntries cfg r = [(r.name, r.url)]) := by
  have hst₁ := add_local_remote_ok st n u st₁ h
  refine ⟨?_, ?_, ?_⟩
  · rw [hst₁]
    unfold list_remotes
    rw [List.mem_flatMap]
    exact ⟨⟨n, u⟩, by simp, List.mem_cons_self _ _⟩
  · intro u' st₂ hne h₂
    have hst₂ := add_push_url_ok st₁ n u' st₂ h₂
    have hcfg : lookupCfg st₂.config (pushUrlKey n) = some u' := by
      rw [hst₂]
      exact lookupCfg_setCfg_self _ _ _
    have hrem : st₂.remotes = st.remotes ++ [⟨n, u⟩] := by
      rw [hst₂, hst₁]
    refine ⟨st.remotes.flatMap (remoteEntries st₂.config), ?_⟩
    unfold list_remotes
    rw [hrem, List.flatMap_append]
    congr 1
    show remoteEntries st₂.config ⟨n, u⟩ ++ [] = [(n, u), (n ++ " (push)", u')]
    unfold remoteEntries
    rw [hcfg]
    simp [hne]
  · intro cfg r hr
    unfold remoteEntries
    rw [hr]
    simp

/-- Witness for C6: add `local-hub`, list it, then add a differing push URL
and observe the synthetic pair. -/
theorem c6_add_remote_list_round_trip_witness :
    ("local-hub", "/hub/proj.git")
      ∈ list_remotes (add_local_remote stEmpty "local-hub" "/hub/proj.git").2 ∧
    ∃ pre, list_remotes (add_push_url
        (add_local_remote stEmpty "local-hub" "/hub/proj.git").2 "local-hub"
        "/elsewhere.git").2
      = pre ++ [("local-hub", "/hub/proj.git"),
                ("local-hub" ++ " (push)", "/elsewhere.git")] := by
  have h := c6_add_remote_list_round_trip stEmpty "local-hub" "/hub/proj.git"
    (add_local_remote stEmpty "local-hub" "/hub/proj.git").2 rfl
  exact ⟨h.1, h.2.1 "/elsewhere.git"
    (add_push_url (add_local_remote stEmpty "local-hub" "/hub/proj.git").2
      "local-hub" "/elsewhere.git").2 (by decide) rfl⟩
